import Mathlib

/-!
Verification of the image recompression script (src/zip.py) against its
natural-language specification.

The script walks a directory, finds image files larger than a byte budget and
recompresses each one with a quality-then-scale search.  This file gives a
shallow embedding of the script and proves or refutes the frozen claims.

Modelling conventions:

A decoded image is abstracted by its dimensions plus the band/mode data used by
has_alpha; the external codec (Pillow) is abstracted by a Codec record whose
encLen field gives, for each format, working-image size and optional quality
keyword, either the byte length of the encoding or an error.  The content of a
working image is determined by the original image and the current size, because
the working copy is obtained from the original by a deterministic chain of
resize steps; hence indexing encLen by size is faithful.  The fixed keyword
arguments of each call site (optimize, compress_level=9, method=6,
lossless=False) are constant per format in the script and are absorbed into
the Codec abstraction.

The quality-support test in line 32 of zip.py is

  while "quality" in Image.SAVE.keys(fmt.upper()) if hasattr(Image, "SAVE")
        else fmt.lower() in ("jpeg", "webp"):

By Python operator precedence this is a conditional expression.  When the
module PIL.Image has the attribute SAVE (every released Pillow defines the
plugin registry SAVE as a plain dict at module level), the branch
Image.SAVE.keys(fmt.upper()) is evaluated, and dict.keys takes no arguments,
so the call raises TypeError before any encode happens.  Only when the
attribute were absent would the fallback capability test
fmt.lower() in ("jpeg", "webp") run.  The Codec field hasSAVE records whether
the attribute exists (true for the real library), and qualityCheck models the
evaluation of the condition, including the raised TypeError.

Python exceptions are modelled with Except; the raising calls are the codec
calls and the quality-support check.  Filesystem writes and removes are
modelled as a list of FsAction values; console printing is not modelled.

int(w * DOWNSCALE_RATIO) with DOWNSCALE_RATIO = 0.9 is modelled as 9 * w / 10
on Nat.  Justification: the double nearest to 0.9 is 0.9 + d with
0 < d < 2^-53, so the real product w * fl(0.9) lies in [0.9*w, 0.9*w + w*2^-53]
and the rounded double product lies in [floor(0.9*w), floor(0.9*w) + 1) for
every image dimension w below 2^49; truncation by int therefore yields exactly
floor(9*w/10).

Each function keeps the name of the script function it is translated from
(leading underscores dropped); the functions that contain loops additionally
return the list of encode attempts they perform (the trace), which only
records what the Python code already does and changes no result.
-/

deriving instance DecidableEq for Except

/-- Errors a Python call can raise in the model: the TypeError raised by the
quality-support check, and decode/encode failures of the codec. -/
inductive PyError where
  | typeError
  | decodeError
  | encodeError
deriving DecidableEq

/-- TARGET_SIZE = 1 * 1024 * 512 (zip.py line 5). -/
abbrev TARGET_SIZE : Nat := 1 * 1024 * 512

/-- MIN_QUALITY = 20 (zip.py line 6). -/
abbrev MIN_QUALITY : Nat := 20

/-- QUALITY_STEP = 5 (zip.py line 7). -/
abbrev QUALITY_STEP : Nat := 5

/-- ALLOW_PNG_TO_WEBP = True (zip.py line 9). -/
abbrev ALLOW_PNG_TO_WEBP : Bool := true

/-- Python str.lower for the ASCII strings the script handles, defined by a
structural map so that concrete instances reduce in the kernel. -/
def lower (s : String) : String := ⟨s.data.map Char.toLower⟩

/-- The fallback branch of the quality-support condition:
fmt.lower() in ("jpeg", "webp") (zip.py line 32). -/
def fmtSupportsQuality (fmt : String) : Bool :=
  lower fmt = "jpeg" || lower fmt = "webp"

/-- Abstraction of the external codec (Pillow).  encLen fmt size quality is
the byte length produced by img.save for the working image of the given size,
in the given format, with the given optional quality keyword, or the error the
save call raises.  hasSAVE records whether the module PIL.Image has the
attribute SAVE; every released Pillow does. -/
structure Codec where
  encLen : String → Nat × Nat → Option Nat → Except PyError Nat
  hasSAVE : Bool

/-- One evaluation of the while condition in zip.py line 32.  With the SAVE
registry present, Image.SAVE.keys(fmt.upper()) raises TypeError because
dict.keys takes no arguments; otherwise the fallback membership test runs. -/
def qualityCheck (hasSAVE : Bool) (fmt : String) : Except PyError Bool :=
  if hasSAVE then Except.error PyError.typeError
  else Except.ok (fmtSupportsQuality fmt)

/-- One downscale step (zip.py line 42 and line 81):
(max(1, int(w * 0.9)), max(1, int(h * 0.9))). -/
def downscale (s : Nat × Nat) : Nat × Nat :=
  (max 1 (9 * s.1 / 10), max 1 (9 * s.2 / 10))

/-- Termination measure for the downscale loops: the perimeter, padded so that
a degenerate zero dimension being bumped up to 1 still decreases it. -/
def sizeMeasure (s : Nat × Nat) : Nat :=
  s.1 + s.2 + (if s.1 = 0 then 2 else 0) + (if s.2 = 0 then 2 else 0)

theorem downscale_measure_lt (s : Nat × Nat) (h : ¬ downscale s = s) :
    sizeMeasure (downscale s) < sizeMeasure s := by
  rcases s with ⟨a, b⟩
  have hco : max 1 (9 * a / 10) ≠ a ∨ max 1 (9 * b / 10) ≠ b := by
    rcases eq_or_ne (max 1 (9 * a / 10)) a with h1 | h1
    · refine Or.inr fun h2 => h ?_
      simp only [downscale, Prod.mk.injEq]
      exact ⟨h1, h2⟩
    · exact Or.inl h1
  simp only [downscale, sizeMeasure]
  rw [if_neg (show ¬ max 1 (9 * a / 10) = 0 by omega),
      if_neg (show ¬ max 1 (9 * b / 10) = 0 by omega)]
  rcases hco with hco | hco <;> by_cases ha : a = 0 <;> by_cases hb : b = 0 <;>
    simp only [ha, hb, reduceIte, if_pos, if_neg] <;> omega

/-- The bytes of one in-memory candidate encoding (_try_save_to_bytes result),
abstracted to the data that determines them: the working-image size, the
quality keyword passed (none when the call passes no quality), and the byte
length. -/
structure Candidate where
  size : Nat × Nat
  quality : Option Nat
  len : Nat
deriving DecidableEq

/-- One encode attempt performed during the search (one _try_save_to_bytes
call): format, working-image size, quality keyword passed. -/
structure EncEvent where
  fmt : String
  size : Nat × Nat
  quality : Option Nat
deriving DecidableEq

/-- The inner quality loop of _progressive_compress (zip.py lines 31-38) at a
fixed working-image size, starting from quality q.  Returns the encode
attempts made, and either the raised error, or Sum.inl of the accepted
candidate (length within budget, returned immediately), or Sum.inr of the
value of q_iter when the loop stops without accepting (quality floor reached,
or the format does not support quality so the loop body never runs). -/
def quality_loop (c : Codec) (fmt : String) (size : Nat × Nat) (q : Nat) :
    List EncEvent × Except PyError (Candidate ⊕ Nat) :=
  match qualityCheck c.hasSAVE fmt with
  | .error e => ([], .error e)
  | .ok false => ([], .ok (.inr q))
  | .ok true =>
    match c.encLen fmt size (some q) with
    | .error e => ([⟨fmt, size, some q⟩], .error e)
    | .ok len =>
      if len ≤ TARGET_SIZE then
        ([⟨fmt, size, some q⟩], .ok (.inl ⟨size, some q, len⟩))
      else if _h : q ≤ MIN_QUALITY then
        ([⟨fmt, size, some q⟩], .ok (.inr q))
      else
        let r := quality_loop c fmt size (q - QUALITY_STEP)
        (⟨fmt, size, some q⟩ :: r.1, r.2)
termination_by q
decreasing_by simp only [MIN_QUALITY, QUALITY_STEP] at *; omega

/-- The outer loop of _progressive_compress (zip.py lines 29-47): quality
search at the current size, then downscale and re-enter, and when a downscale
step no longer changes the size, one final encode at quality
max(MIN_QUALITY, q_iter) (line 45). -/
def progressive_compress_go (c : Codec) (fmt : String) (quality : Nat)
    (size : Nat × Nat) : List EncEvent × Except PyError Candidate :=
  match quality_loop c fmt size quality with
  | (tr, .error e) => (tr, .error e)
  | (tr, .ok (.inl cand)) => (tr, .ok cand)
  | (tr, .ok (.inr qIter)) =>
    if _h : downscale size = size then
      match c.encLen fmt size (some (max MIN_QUALITY qIter)) with
      | .error e => (tr ++ [⟨fmt, size, some (max MIN_QUALITY qIter)⟩], .error e)
      | .ok len =>
        (tr ++ [⟨fmt, size, some (max MIN_QUALITY qIter)⟩],
         .ok ⟨size, some (max MIN_QUALITY qIter), len⟩)
    else
      let r := progressive_compress_go c fmt quality (downscale size)
      (tr ++ r.1, r.2)
termination_by sizeMeasure size
decreasing_by exact downscale_measure_lt size _h

/-- _progressive_compress (zip.py lines 21-47).  quality = 95 if quality_first
else kwargs.pop("quality", 95) (line 27); every call site of the script leaves
quality_first at True. -/
def progressive_compress (c : Codec) (fmt : String) (qualityFirst : Bool)
    (kwargsQuality : Option Nat) (size : Nat × Nat) :
    List EncEvent × Except PyError Candidate :=
  progressive_compress_go c fmt
    (if qualityFirst then 95 else kwargsQuality.getD 95) size

/-- The successive sizes a working image takes under repeated downscale steps,
up to and including the first size a downscale step leaves unchanged. -/
def downscaleChain (s : Nat × Nat) : List (Nat × Nat) :=
  if _h : downscale s = s then [s] else s :: downscaleChain (downscale s)
termination_by sizeMeasure s
decreasing_by exact downscale_measure_lt s _h

/-- The lossless PNG downscale loop for transparent PNGs (zip.py lines
79-89), entered with the current working size and the last candidate computed
so far (line 72 computes the first one).  Returns the encode attempts and
either the raised error, or Sum.inl of an accepted candidate (written and
returned by the script), or Sum.inr of the last candidate when the loop exits
via break because a downscale step no longer changes the size. -/
def png_shrink_loop (c : Codec) (size : Nat × Nat) (last : Candidate) :
    List EncEvent × Except PyError (Candidate ⊕ Candidate) :=
  if _h : downscale size = size then ([], .ok (.inr last))
  else
    match c.encLen "PNG" (downscale size) none with
    | .error e => ([⟨"PNG", downscale size, none⟩], .error e)
    | .ok len =>
      if len ≤ TARGET_SIZE then
        ([⟨"PNG", downscale size, none⟩], .ok (.inl ⟨downscale size, none, len⟩))
      else
        let r := png_shrink_loop c (downscale size) ⟨downscale size, none, len⟩
        (⟨"PNG", downscale size, none⟩ :: r.1, r.2)
termination_by sizeMeasure size
decreasing_by exact downscale_measure_lt size _h

/-- A decoded image as far as the script observes it: size, the band names of
getbands(), the mode string, and the source format attribute. -/
structure ImgInfo where
  size : Nat × Nat
  bands : List String
  mode : String
  format : Option String
deriving DecidableEq

/-- has_alpha (zip.py lines 11-13):
("A" in img.getbands()) or (img.mode in ("LA", "RGBA", "PA")). -/
def has_alpha (img : ImgInfo) : Bool :=
  img.bands.contains "A" ||
    (img.mode == "LA" || img.mode == "RGBA" || img.mode == "PA")

/-- An input path, pre-split by os.path.splitext: the full path is
base ++ ext. -/
structure InputFile where
  base : String
  ext : String
deriving DecidableEq

/-- A filesystem side effect of compress_image: writing candidate bytes to a
path, or os.remove of a path. -/
inductive FsAction where
  | writeFile (path : String) (cand : Candidate)
  | removeFile (path : String)
deriving DecidableEq

/-- Outcome of one compress_image call: the filesystem actions performed, the
encode attempts performed, and the exception reaching the per-file handler of
zip.py line 148 (none when the call returns normally). -/
structure RunResult where
  actions : List FsAction
  trace : List EncEvent
  err : Option PyError
deriving DecidableEq

/-- compress_image (zip.py lines 49-149).  The opened argument is the result
of Image.open: the decoded image, or the decode error it raises. -/
def compress_image (c : Codec) (file : InputFile)
    (opened : Except PyError ImgInfo) : RunResult :=
  match opened with
  | .error e => ⟨[], [], some e⟩
  | .ok img =>
    let path := file.base ++ file.ext
    let ext := lower file.ext
    if ext ∈ [".jpg", ".jpeg"] then
      match progressive_compress c "JPEG" true none img.size with
      | (tr, .error e) => ⟨[], tr, some e⟩
      | (tr, .ok cand) => ⟨[.writeFile path cand], tr, none⟩
    else if ext = ".png" then
      if has_alpha img then
        match c.encLen "PNG" img.size none with
        | .error e => ⟨[], [⟨"PNG", img.size, none⟩], some e⟩
        | .ok len0 =>
          if len0 ≤ TARGET_SIZE then
            ⟨[.writeFile path ⟨img.size, none, len0⟩],
             [⟨"PNG", img.size, none⟩], none⟩
          else
            match png_shrink_loop c img.size ⟨img.size, none, len0⟩ with
            | (tr, .error e) => ⟨[], ⟨"PNG", img.size, none⟩ :: tr, some e⟩
            | (tr, .ok (.inl cand)) =>
              ⟨[.writeFile path cand], ⟨"PNG", img.size, none⟩ :: tr, none⟩
            | (tr, .ok (.inr last)) =>
              if ALLOW_PNG_TO_WEBP then
                match progressive_compress c "WEBP" true none img.size with
                | (tr2, .error e) =>
                  ⟨[], ⟨"PNG", img.size, none⟩ :: (tr ++ tr2), some e⟩
                | (tr2, .ok cand) =>
                  ⟨[.writeFile (file.base ++ ".webp") cand, .removeFile path],
                   ⟨"PNG", img.size, none⟩ :: (tr ++ tr2), none⟩
              else
                ⟨[.writeFile path last], ⟨"PNG", img.size, none⟩ :: tr, none⟩
      else
        match progressive_compress c "JPEG" true none img.size with
        | (tr, .error e) => ⟨[], tr, some e⟩
        | (tr, .ok cand) =>
          ⟨[.writeFile (file.base ++ ".jpg") cand, .removeFile path], tr, none⟩
    else if ext = ".webp" then
      match progressive_compress c "WEBP" true none img.size with
      | (tr, .error e) => ⟨[], tr, some e⟩
      | (tr, .ok cand) => ⟨[.writeFile path cand], tr, none⟩
    else
      match progressive_compress c (img.format.getD "PNG") true none img.size with
      | (tr, .ok cand) => ⟨[.writeFile path cand], tr, none⟩
      | (tr, .error _) =>
        match progressive_compress c "JPEG" true none img.size with
        | (tr2, .error e) => ⟨[], tr ++ tr2, some e⟩
        | (tr2, .ok cand) =>
          ⟨[.writeFile (file.base ++ ".jpg") cand], tr ++ tr2, none⟩

/-- Whether a filesystem action is a write. -/
def isWrite : FsAction → Bool
  | .writeFile _ _ => true
  | .removeFile _ => false

/-- One directory entry as process_folder sees it: the name pre-split as for
InputFile, the on-disk size, and the outcome of opening it. -/
structure FolderFile where
  base : String
  ext : String
  fileSize : Nat
  opened : Except PyError ImgInfo

/-- The extension filter of process_folder (zip.py line 155):
f.lower().endswith((".jpg", ".jpeg", ".png", ".webp")). -/
def wantedExt (name : String) : Bool :=
  (lower name).endsWith ".jpg" || (lower name).endsWith ".jpeg" ||
  (lower name).endsWith ".png" || (lower name).endsWith ".webp"

/-- process_folder (zip.py lines 151-172) over the list of files the walk
yields: every file with a wanted extension and size above budget is handed to
compress_image; others are skipped (none).  Reporting lines are not
modelled. -/
def process_folder (c : Codec) (files : List FolderFile) :
    List (Option RunResult) :=
  files.map fun f =>
    if wantedExt (f.base ++ f.ext) && decide (TARGET_SIZE < f.fileSize) then
      some (compress_image c ⟨f.base, f.ext⟩ f.opened)
    else none

/-- Working-image sizes are componentwise non-increasing between consecutive
encode attempts. -/
def sizeNonInc (a b : EncEvent) : Prop :=
  b.size.1 ≤ a.size.1 ∧ b.size.2 ≤ a.size.2

/-- Quality policy between consecutive encode attempts: at an unchanged size
the quality does not increase; at a changed size the quality restarts at the
entry quality q. -/
def qualityPolicy (q : Nat) (a b : EncEvent) : Prop :=
  (b.size = a.size → ∃ x y, a.quality = some x ∧ b.quality = some y ∧ y ≤ x) ∧
  (b.size ≠ a.size → b.quality = some q)

/-- Consecutive encode attempts of the lossless PNG loop: the size moves by
exactly one downscale step and does not increase. -/
def pngStep (a b : EncEvent) : Prop :=
  b.size = downscale a.size ∧ b.size.1 ≤ a.size.1 ∧ b.size.2 ≤ a.size.2

/-- Consecutive sizes of the downscale chain: one downscale step, strictly
shrinking at least one dimension. -/
def chainStep (a b : Nat × Nat) : Prop :=
  b = downscale a ∧ (b.1 < a.1 ∨ b.2 < a.2)

/-- A codec with the SAVE registry present (as in every released Pillow) whose
encodings all exceed the budget. -/
def pilOver : Codec := ⟨fun _ _ _ => .ok (TARGET_SIZE + 1), true⟩

/-- A codec without the SAVE registry (exercising the fallback capability
test) whose encodings all exceed the budget. -/
def demoOver : Codec := ⟨fun _ _ _ => .ok (TARGET_SIZE + 1), false⟩

/-- A fallback-branch codec for which the original format fails to encode and
JPEG succeeds within budget. -/
def gifCodec : Codec :=
  ⟨fun fmt _ _ => if fmt = "JPEG" then .ok 0 else .error .encodeError, false⟩

/-- A file with a non-handled extension, reaching the final branch of
compress_image. -/
def gifFile : InputFile := ⟨"anim", ".gif"⟩

/-- A 1x1 palette image whose source format attribute is GIF. -/
def gifImg : ImgInfo := ⟨(1, 1), ["P"], "P", some "GIF"⟩

/-- A fallback-branch codec for which PNG encodings always exceed the budget
while WebP encodings fit. -/
def pngWebpCodec : Codec :=
  ⟨fun fmt _ _ => if fmt = "WEBP" then .ok 0 else .ok (TARGET_SIZE + 1), false⟩

/-- A PNG input file. -/
def alphaFile : InputFile := ⟨"pic", ".png"⟩

/-- A 1x1 RGBA image. -/
def alphaImg : ImgInfo := ⟨(1, 1), ["R", "G", "B", "A"], "RGBA", some "PNG"⟩

/-- A 2x2 RGBA image. -/
def alphaImg2 : ImgInfo := ⟨(2, 2), ["R", "G", "B", "A"], "RGBA", some "PNG"⟩

/-- A 3x3 opaque RGB image decoded from a PNG. -/
def opaqueImg : ImgInfo := ⟨(3, 3), ["R", "G", "B"], "RGB", some "PNG"⟩

/-- Another PNG input file. -/
def opaqueFile : InputFile := ⟨"pic2", ".png"⟩

/-- A directory entry above budget whose open raises a decode error. -/
def brokenFolder : FolderFile := ⟨"broken", ".jpg", TARGET_SIZE + 1, .error .decodeError⟩

/-! ## Helper lemmas -/

theorem downscale_le (s : Nat × Nat) (h1 : 1 ≤ s.1) (h2 : 1 ≤ s.2) :
    (downscale s).1 ≤ s.1 ∧ (downscale s).2 ≤ s.2 := by
  simp only [downscale]
  constructor <;> omega

theorem downscale_ge_one (s : Nat × Nat) :
    1 ≤ (downscale s).1 ∧ 1 ≤ (downscale s).2 := by
  simp only [downscale]
  constructor <;> omega

theorem downscale_eq_self_iff (s : Nat × Nat) (h1 : 1 ≤ s.1) (h2 : 1 ≤ s.2) :
    downscale s = s ↔ s = (1, 1) := by
  rcases s with ⟨a, b⟩
  simp only [downscale, Prod.mk.injEq] at *
  constructor
  · rintro ⟨ha, hb⟩
    exact ⟨by omega, by omega⟩
  · rintro ⟨ha, hb⟩
    subst ha
    subst hb
    exact ⟨by omega, by omega⟩

theorem quality_loop_hasSAVE (c : Codec) (h : c.hasSAVE = true) (fmt : String)
    (s : Nat × Nat) (q : Nat) :
    quality_loop c fmt s q = ([], .error .typeError) := by
  rw [quality_loop]
  simp [qualityCheck, h]

theorem quality_loop_mem (c : Codec) (fmt : String) (s : Nat × Nat) (q : Nat) :
    ∀ e ∈ (quality_loop c fmt s q).1, e.fmt = fmt ∧ e.size = s := by
  induction q using quality_loop.induct c fmt s with
  | case1 q e hq =>
    rw [quality_loop, hq]
    simp
  | case2 q hq =>
    rw [quality_loop, hq]
    simp
  | case3 q hq e henc =>
    rw [quality_loop, hq, henc]
    simp
  | case4 q hq len henc hlen =>
    rw [quality_loop, hq, henc]
    simp [if_pos hlen]
  | case5 q hq len henc hlen hmin =>
    rw [quality_loop, hq, henc]
    simp [if_neg hlen, dif_pos hmin]
  | case6 q hq len henc hlen hmin ih =>
    rw [quality_loop, hq, henc]
    simp only [if_neg hlen, dif_neg hmin, List.mem_cons]
    rintro e (rfl | he)
    · exact ⟨rfl, rfl⟩
    · exact ih e he

theorem step_arith (q : Nat) (hmin : ¬ q ≤ MIN_QUALITY) (h5 : q % QUALITY_STEP = 0) :
    MIN_QUALITY ≤ q - QUALITY_STEP ∧ (q - QUALITY_STEP) % QUALITY_STEP = 0 ∧
      q - QUALITY_STEP ≤ q := by
  simp only [MIN_QUALITY, QUALITY_STEP] at *
  omega

theorem quality_loop_mem_q (c : Codec) (fmt : String) (s : Nat × Nat) :
    ∀ q, MIN_QUALITY ≤ q → q % QUALITY_STEP = 0 →
      ∀ e ∈ (quality_loop c fmt s q).1,
        ∃ v, e.quality = some v ∧ MIN_QUALITY ≤ v ∧ v ≤ q := by
  intro q
  induction q using quality_loop.induct c fmt s with
  | case1 q e hq =>
    rw [quality_loop, hq]
    simp
  | case2 q hq =>
    rw [quality_loop, hq]
    simp
  | case3 q hq e henc =>
    intro h20 h5
    rw [quality_loop, hq, henc]
    intro e' he'
    simp at he'
    subst he'
    exact ⟨q, rfl, h20, le_refl q⟩
  | case4 q hq len henc hlen =>
    intro h20 h5
    rw [quality_loop, hq, henc]
    simp only [if_pos hlen]
    intro e' he'
    simp at he'
    subst he'
    exact ⟨q, rfl, h20, le_refl q⟩
  | case5 q hq len henc hlen hmin =>
    intro h20 h5
    rw [quality_loop, hq, henc]
    simp only [if_neg hlen, dif_pos hmin]
    intro e' he'
    simp at he'
    subst he'
    exact ⟨q, rfl, h20, le_refl q⟩
  | case6 q hq len henc hlen hmin ih =>
    intro h20 h5
    obtain ⟨ha1, ha2, ha3⟩ := step_arith q hmin h5
    rw [quality_loop, hq, henc]
    simp only [if_neg hlen, dif_neg hmin, List.mem_cons]
    rintro e (rfl | he)
    · exact ⟨q, rfl, h20, le_refl q⟩
    · obtain ⟨v, hv, hv1, hv2⟩ := ih ha1 ha2 e he
      exact ⟨v, hv, hv1, le_trans hv2 ha3⟩

theorem quality_loop_head (c : Codec) (fmt : String) (s : Nat × Nat) (q : Nat) :
    ∀ e, (quality_loop c fmt s q).1.head? = some e → e = ⟨fmt, s, some q⟩ := by
  induction q using quality_loop.induct c fmt s with
  | case1 q e hq =>
    rw [quality_loop, hq]
    simp
  | case2 q hq =>
    rw [quality_loop, hq]
    simp
  | case3 q hq e henc =>
    rw [quality_loop, hq, henc]
    intro e' h
    simp at h
    exact h.symm
  | case4 q hq len henc hlen =>
    rw [quality_loop, hq, henc]
    simp only [if_pos hlen]
    intro e' h
    simp at h
    exact h.symm
  | case5 q hq len henc hlen hmin =>
    rw [quality_loop, hq, henc]
    simp only [if_neg hlen, dif_pos hmin]
    intro e' h
    simp at h
    exact h.symm
  | case6 q hq len henc hlen hmin ih =>
    rw [quality_loop, hq, henc]
    simp only [if_neg hlen, dif_neg hmin]
    intro e' h
    simp at h
    exact h.symm

theorem quality_loop_chain (c : Codec) (fmt : String) (s : Nat × Nat) (q : Nat) :
    List.Chain' (fun a b => a.size = s ∧ b.size = s ∧
      ∃ x y, a.quality = some x ∧ b.quality = some y ∧ y ≤ x)
      (quality_loop c fmt s q).1 := by
  induction q using quality_loop.induct c fmt s with
  | case1 q e hq =>
    rw [quality_loop, hq]
    simp
  | case2 q hq =>
    rw [quality_loop, hq]
    simp
  | case3 q hq e henc =>
    rw [quality_loop, hq, henc]
    exact List.chain'_singleton _
  | case4 q hq len henc hlen =>
    rw [quality_loop, hq, henc]
    simp only [if_pos hlen]
    exact List.chain'_singleton _
  | case5 q hq len henc hlen hmin =>
    rw [quality_loop, hq, henc]
    simp only [if_neg hlen, dif_pos hmin]
    exact List.chain'_singleton _
  | case6 q hq len henc hlen hmin ih =>
    rw [quality_loop, hq, henc]
    simp only [if_neg hlen, dif_neg hmin]
    refine List.chain'_cons'.mpr ⟨?_, ih⟩
    intro y hy
    have hy' := quality_loop_head c fmt s (q - QUALITY_STEP) y hy
    subst hy'
    exact ⟨rfl, rfl, q, q - QUALITY_STEP, rfl, rfl, Nat.sub_le q QUALITY_STEP⟩

theorem quality_loop_inr (c : Codec) (fmt : String) (s : Nat × Nat) :
    ∀ q, MIN_QUALITY ≤ q → q % QUALITY_STEP = 0 →
    ∀ q', (quality_loop c fmt s q).2 = .ok (.inr q') →
      MIN_QUALITY ≤ q' ∧ q' ≤ q ∧
      ((quality_loop c fmt s q).1 = [] → q' = q) ∧
      (∀ e ∈ (quality_loop c fmt s q).1, ∃ v, e.quality = some v ∧ q' ≤ v) := by
  intro q
  induction q using quality_loop.induct c fmt s with
  | case1 q e hq =>
    rw [quality_loop, hq]
    simp
  | case2 q hq =>
    intro h20 h5 q' hq'
    have htr : quality_loop c fmt s q = ([], .ok (.inr q)) := by rw [quality_loop, hq]
    rw [htr] at hq'
    simp at hq'
    subst hq'
    rw [htr]
    exact ⟨h20, le_refl q, fun _ => rfl, by simp⟩
  | case3 q hq e henc =>
    rw [quality_loop, hq, henc]
    simp
  | case4 q hq len henc hlen =>
    rw [quality_loop, hq, henc]
    simp only [if_pos hlen]
    simp
  | case5 q hq len henc hlen hmin =>
    intro h20 h5 q' hq'
    rw [quality_loop, hq, henc] at hq' ⊢
    simp only [if_neg hlen, dif_pos hmin] at hq' ⊢
    simp at hq'
    subst hq'
    refine ⟨h20, le_refl q, by simp, ?_⟩
    intro e he
    simp at he
    subst he
    exact ⟨q, rfl, le_refl q⟩
  | case6 q hq len henc hlen hmin ih =>
    intro h20 h5 q' hq'
    obtain ⟨ha1, ha2, ha3⟩ := step_arith q hmin h5
    rw [quality_loop, hq, henc] at hq' ⊢
    simp only [if_neg hlen, dif_neg hmin] at hq' ⊢
    obtain ⟨hb1, hb2, _, hb4⟩ := ih ha1 ha2 q' hq'
    refine ⟨hb1, le_trans hb2 ha3, by simp, ?_⟩
    intro e he
    simp only [List.mem_cons] at he
    rcases he with rfl | he
    · exact ⟨q, rfl, le_trans hb2 ha3⟩
    · exact hb4 e he

theorem quality_loop_ne_nil (c : Codec) (fmt : String) (s : Nat × Nat) (q : Nat)
    (h : qualityCheck c.hasSAVE fmt = .ok true) :
    (quality_loop c fmt s q).1 ≠ [] := by
  rw [quality_loop, h]
  cases henc : c.encLen fmt s (some q) with
  | error e => simp
  | ok len =>
    dsimp only
    split
    · simp
    · split <;> simp

theorem lt_of_le_ne_pair (d s : Nat × Nat) (h1 : d.1 ≤ s.1) (h2 : d.2 ≤ s.2)
    (hne : d ≠ s) : d.1 < s.1 ∨ d.2 < s.2 := by
  by_contra hc
  push_neg at hc
  exact hne (Prod.ext (le_antisymm h1 hc.1) (le_antisymm h2 hc.2))

theorem downscaleChain_ne_nil (s : Nat × Nat) : downscaleChain s ≠ [] := by
  rw [downscaleChain]
  split <;> simp

theorem downscaleChain_head (s : Nat × Nat) : (downscaleChain s).head? = some s := by
  rw [downscaleChain]
  split <;> simp

theorem downscaleChain_getLast (s : Nat × Nat) :
    ∀ _h1 : 1 ≤ s.1, ∀ _h2 : 1 ≤ s.2, (downscaleChain s).getLast? = some (1, 1) := by
  induction s using downscaleChain.induct with
  | case1 s hfix =>
    intro h1 h2
    have hs : s = (1, 1) := (downscale_eq_self_iff s h1 h2).mp hfix
    rw [downscaleChain, dif_pos hfix, hs]
    rfl
  | case2 s hfix ih =>
    intro h1 h2
    rw [downscaleChain, dif_neg hfix,
        show s :: downscaleChain (downscale s) = [s] ++ downscaleChain (downscale s) from rfl,
        List.getLast?_append_of_ne_nil _ (downscaleChain_ne_nil _)]
    exact ih (downscale_ge_one s).1 (downscale_ge_one s).2

theorem downscaleChain_chain (s : Nat × Nat) :
    ∀ _h1 : 1 ≤ s.1, ∀ _h2 : 1 ≤ s.2, List.Chain' chainStep (downscaleChain s) := by
  induction s using downscaleChain.induct with
  | case1 s hfix =>
    intro h1 h2
    rw [downscaleChain, dif_pos hfix]
    exact List.chain'_singleton s
  | case2 s hfix ih =>
    intro h1 h2
    rw [downscaleChain, dif_neg hfix]
    refine List.chain'_cons'.mpr ⟨?_, ih (downscale_ge_one s).1 (downscale_ge_one s).2⟩
    intro y hy
    rw [downscaleChain_head] at hy
    simp only [Option.mem_some_iff] at hy
    subst hy
    have hle := downscale_le s h1 h2
    exact ⟨rfl, lt_of_le_ne_pair (downscale s) s hle.1 hle.2 hfix⟩

theorem quality_loop_len (c : Codec) (fmt : String) (s : Nat × Nat) :
    ∀ q, (quality_loop c fmt s q).1.length ≤ q / QUALITY_STEP + 1 := by
  intro q
  induction q using quality_loop.induct c fmt s with
  | case1 q e hq =>
    rw [quality_loop, hq]
    simp
  | case2 q hq =>
    rw [quality_loop, hq]
    simp
  | case3 q hq e henc =>
    rw [quality_loop, hq, henc]
    simp
  | case4 q hq len henc hlen =>
    rw [quality_loop, hq, henc]
    simp only [if_pos hlen]
    simp
  | case5 q hq len henc hlen hmin =>
    rw [quality_loop, hq, henc]
    simp only [if_neg hlen, dif_pos hmin]
    simp
  | case6 q hq len henc hlen hmin ih =>
    rw [quality_loop, hq, henc]
    simp only [if_neg hlen, dif_neg hmin, List.length_cons]
    simp only [MIN_QUALITY, QUALITY_STEP] at hmin ih ⊢
    omega

theorem go_trace_sizes (c : Codec) (fmt : String) (quality : Nat) :
    ∀ s : Nat × Nat, 1 ≤ s.1 → 1 ≤ s.2 →
      (∀ e ∈ (progressive_compress_go c fmt quality s).1,
          e.fmt = fmt ∧ e.size.1 ≤ s.1 ∧ e.size.2 ≤ s.2 ∧
          1 ≤ e.size.1 ∧ 1 ≤ e.size.2) ∧
      List.Chain' sizeNonInc (progressive_compress_go c fmt quality s).1 := by
  intro s
  induction s using progressive_compress_go.induct c fmt quality with
  | case1 s tr e hql =>
    intro h1 h2
    have htr : (progressive_compress_go c fmt quality s).1 = tr := by
      rw [progressive_compress_go, hql]
    have hq : tr = (quality_loop c fmt s quality).1 := by rw [hql]
    subst hq
    rw [htr]
    constructor
    · intro e' he'
      obtain ⟨hf, hs⟩ := quality_loop_mem c fmt s quality e' he'
      rw [hs]
      exact ⟨hf, le_refl _, le_refl _, h1, h2⟩
    · refine List.Chain'.imp ?_ (quality_loop_chain c fmt s quality)
      rintro a b ⟨ha, hb, -⟩
      exact ⟨by rw [ha, hb], by rw [ha, hb]⟩
  | case2 s tr cand hql =>
    intro h1 h2
    have htr : (progressive_compress_go c fmt quality s).1 = tr := by
      rw [progressive_compress_go, hql]
    have hq : tr = (quality_loop c fmt s quality).1 := by rw [hql]
    subst hq
    rw [htr]
    constructor
    · intro e' he'
      obtain ⟨hf, hs⟩ := quality_loop_mem c fmt s quality e' he'
      rw [hs]
      exact ⟨hf, le_refl _, le_refl _, h1, h2⟩
    · refine List.Chain'.imp ?_ (quality_loop_chain c fmt s quality)
      rintro a b ⟨ha, hb, -⟩
      exact ⟨by rw [ha, hb], by rw [ha, hb]⟩
  | case3 s tr qIter hql hfix e henc =>
    intro h1 h2
    have htr : (progressive_compress_go c fmt quality s).1 =
        tr ++ [⟨fmt, s, some (MIN_QUALITY ⊔ qIter)⟩] := by
      rw [progressive_compress_go, hql]
      dsimp only
      rw [dif_pos hfix, henc]
    have hq : tr = (quality_loop c fmt s quality).1 := by rw [hql]
    subst hq
    rw [htr]
    constructor
    · intro e' he'
      rcases List.mem_append.mp he' with he' | he'
      · obtain ⟨hf, hs⟩ := quality_loop_mem c fmt s quality e' he'
        rw [hs]
        exact ⟨hf, le_refl _, le_refl _, h1, h2⟩
      · simp only [List.mem_singleton] at he'
        subst he'
        exact ⟨rfl, le_refl _, le_refl _, h1, h2⟩
    · refine List.Chain'.append ?_ (List.chain'_singleton _) ?_
      · refine List.Chain'.imp ?_ (quality_loop_chain c fmt s quality)
        rintro a b ⟨ha, hb, -⟩
        exact ⟨by rw [ha, hb], by rw [ha, hb]⟩
      · intro x hx y hy
        obtain ⟨-, hs⟩ := quality_loop_mem c fmt s quality x (List.mem_of_mem_getLast? hx)
        simp only [List.head?_cons, Option.mem_some_iff] at hy
        subst hy
        exact ⟨by rw [hs], by rw [hs]⟩
  | case4 s tr qIter hql hfix len henc =>
    intro h1 h2
    have htr : (progressive_compress_go c fmt quality s).1 =
        tr ++ [⟨fmt, s, some (MIN_QUALITY ⊔ qIter)⟩] := by
      rw [progressive_compress_go, hql]
      dsimp only
      rw [dif_pos hfix, henc]
    have hq : tr = (quality_loop c fmt s quality).1 := by rw [hql]
    subst hq
    rw [htr]
    constructor
    · intro e' he'
      rcases List.mem_append.mp he' with he' | he'
      · obtain ⟨hf, hs⟩ := quality_loop_mem c fmt s quality e' he'
        rw [hs]
        exact ⟨hf, le_refl _, le_refl _, h1, h2⟩
      · simp only [List.mem_singleton] at he'
        subst he'
        exact ⟨rfl, le_refl _, le_refl _, h1, h2⟩
    · refine List.Chain'.append ?_ (List.chain'_singleton _) ?_
      · refine List.Chain'.imp ?_ (quality_loop_chain c fmt s quality)
        rintro a b ⟨ha, hb, -⟩
        exact ⟨by rw [ha, hb], by rw [ha, hb]⟩
      · intro x hx y hy
        obtain ⟨-, hs⟩ := quality_loop_mem c fmt s quality x (List.mem_of_mem_getLast? hx)
        simp only [List.head?_cons, Option.mem_some_iff] at hy
        subst hy
        exact ⟨by rw [hs], by rw [hs]⟩
  | case5 s tr qIter hql hne ih =>
    intro h1 h2
    have htr : (progressive_compress_go c fmt quality s).1 =
        tr ++ (progressive_compress_go c fmt quality (downscale s)).1 := by
      rw [progressive_compress_go, hql]
      dsimp only
      rw [dif_neg hne]
    have hq : tr = (quality_loop c fmt s quality).1 := by rw [hql]
    subst hq
    rw [htr]
    have hd1 := (downscale_ge_one s).1
    have hd2 := (downscale_ge_one s).2
    have hdle := downscale_le s h1 h2
    obtain ⟨ihmem, ihchain⟩ := ih hd1 hd2
    constructor
    · intro e' he'
      rcases List.mem_append.mp he' with he' | he'
      · obtain ⟨hf, hs⟩ := quality_loop_mem c fmt s quality e' he'
        rw [hs]
        exact ⟨hf, le_refl _, le_refl _, h1, h2⟩
      · obtain ⟨hf, hb1, hb2, hb3, hb4⟩ := ihmem e' he'
        exact ⟨hf, le_trans hb1 hdle.1, le_trans hb2 hdle.2, hb3, hb4⟩
    · refine List.Chain'.append ?_ ihchain ?_
      · refine List.Chain'.imp ?_ (quality_loop_chain c fmt s quality)
        rintro a b ⟨ha, hb, -⟩
        exact ⟨by rw [ha, hb], by rw [ha, hb]⟩
      · intro x hx y hy
        obtain ⟨-, hs⟩ := quality_loop_mem c fmt s quality x (List.mem_of_mem_getLast? hx)
        obtain ⟨-, hb1, hb2, -, -⟩ := ihmem y (List.mem_of_mem_head? hy)
        exact ⟨by rw [hs]; exact le_trans hb1 hdle.1,
               by rw [hs]; exact le_trans hb2 hdle.2⟩

theorem go_trace_quality (c : Codec) (fmt : String) (q0 : Nat)
    (h20 : MIN_QUALITY ≤ q0) (h5 : q0 % QUALITY_STEP = 0) :
    ∀ s : Nat × Nat, 1 ≤ s.1 → 1 ≤ s.2 →
      (∀ e ∈ (progressive_compress_go c fmt q0 s).1,
          ∃ v, e.quality = some v ∧ MIN_QUALITY ≤ v ∧ v ≤ q0) ∧
      (∀ e, (progressive_compress_go c fmt q0 s).1.head? = some e →
          e.quality = some q0) ∧
      List.Chain' (qualityPolicy q0) (progressive_compress_go c fmt q0 s).1 := by
  have convL : ∀ s : Nat × Nat,
      List.Chain' (qualityPolicy q0) (quality_loop c fmt s q0).1 := by
    intro s
    refine List.Chain'.imp ?_ (quality_loop_chain c fmt s q0)
    rintro a b ⟨ha, hb, x, y, hx, hy, hxy⟩
    constructor
    · intro _
      exact ⟨x, y, hx, hy, hxy⟩
    · intro hne
      exact absurd (hb.trans ha.symm) hne
  intro s
  induction s using progressive_compress_go.induct c fmt q0 with
  | case1 s tr e hql =>
    intro h1 h2
    have htr : (progressive_compress_go c fmt q0 s).1 = tr := by
      rw [progressive_compress_go, hql]
    have hq : tr = (quality_loop c fmt s q0).1 := by rw [hql]
    subst hq
    rw [htr]
    refine ⟨quality_loop_mem_q c fmt s q0 h20 h5, ?_, convL s⟩
    intro e he
    rw [quality_loop_head c fmt s q0 e he]
  | case2 s tr cand hql =>
    intro h1 h2
    have htr : (progressive_compress_go c fmt q0 s).1 = tr := by
      rw [progressive_compress_go, hql]
    have hq : tr = (quality_loop c fmt s q0).1 := by rw [hql]
    subst hq
    rw [htr]
    refine ⟨quality_loop_mem_q c fmt s q0 h20 h5, ?_, convL s⟩
    intro e he
    rw [quality_loop_head c fmt s q0 e he]
  | case3 s tr qIter hql hfix e henc =>
    intro h1 h2
    have htr : (progressive_compress_go c fmt q0 s).1 =
        tr ++ [⟨fmt, s, some (MIN_QUALITY ⊔ qIter)⟩] := by
      rw [progressive_compress_go, hql]
      dsimp only
      rw [dif_pos hfix, henc]
    have hq : tr = (quality_loop c fmt s q0).1 := by rw [hql]
    subst hq
    obtain ⟨hb1, hb2, hb3, hb4⟩ :=
      quality_loop_inr c fmt s q0 h20 h5 qIter (by rw [hql])
    have hmaxeq : MIN_QUALITY ⊔ qIter = qIter := max_eq_right hb1
    rw [htr]
    refine ⟨?_, ?_, ?_⟩
    · intro e' he'
      rcases List.mem_append.mp he' with he' | he'
      · exact quality_loop_mem_q c fmt s q0 h20 h5 e' he'
      · simp only [List.mem_singleton] at he'
        subst he'
        exact ⟨qIter, by rw [hmaxeq], hb1, hb2⟩
    · intro e' he'
      rcases hL : (quality_loop c fmt s q0).1 with _ | ⟨a, l⟩
      · rw [hL] at he'
        simp only [List.nil_append, List.head?_cons] at he'
        cases Option.some.inj he'
        show some (MIN_QUALITY ⊔ qIter) = some q0
        rw [hmaxeq, hb3 hL]
      · rw [hL] at he'
        simp only [List.cons_append, List.head?_cons] at he'
        have ha : a = ⟨fmt, s, some q0⟩ :=
          quality_loop_head c fmt s q0 a (by rw [hL]; rfl)
        cases Option.some.inj he'
        rw [ha]
    · refine List.Chain'.append (convL s) (List.chain'_singleton _) ?_
      intro x hx y hy
      have hxmem := List.mem_of_mem_getLast? hx
      obtain ⟨-, hxs⟩ := quality_loop_mem c fmt s q0 x hxmem
      obtain ⟨v, hxv, hvIter⟩ := hb4 x hxmem
      simp only [List.head?_cons, Option.mem_some_iff] at hy
      subst hy
      constructor
      · intro _
        exact ⟨v, qIter, hxv, by rw [hmaxeq], hvIter⟩
      · intro hne
        exact absurd (hxs ▸ rfl) hne
  | case4 s tr qIter hql hfix len henc =>
    intro h1 h2
    have htr : (progressive_compress_go c fmt q0 s).1 =
        tr ++ [⟨fmt, s, some (MIN_QUALITY ⊔ qIter)⟩] := by
      rw [progressive_compress_go, hql]
      dsimp only
      rw [dif_pos hfix, henc]
    have hq : tr = (quality_loop c fmt s q0).1 := by rw [hql]
    subst hq
    obtain ⟨hb1, hb2, hb3, hb4⟩ :=
      quality_loop_inr c fmt s q0 h20 h5 qIter (by rw [hql])
    have hmaxeq : MIN_QUALITY ⊔ qIter = qIter := max_eq_right hb1
    rw [htr]
    refine ⟨?_, ?_, ?_⟩
    · intro e' he'
      rcases List.mem_append.mp he' with he' | he'
      · exact quality_loop_mem_q c fmt s q0 h20 h5 e' he'
      · simp only [List.mem_singleton] at he'
        subst he'
        exact ⟨qIter, by rw [hmaxeq], hb1, hb2⟩
    · intro e' he'
      rcases hL : (quality_loop c fmt s q0).1 with _ | ⟨a, l⟩
      · rw [hL] at he'
        simp only [List.nil_append, List.head?_cons] at he'
        cases Option.some.inj he'
        show some (MIN_QUALITY ⊔ qIter) = some q0
        rw [hmaxeq, hb3 hL]
      · rw [hL] at he'
        simp only [List.cons_append, List.head?_cons] at he'
        have ha : a = ⟨fmt, s, some q0⟩ :=
          quality_loop_head c fmt s q0 a (by rw [hL]; rfl)
        cases Option.some.inj he'
        rw [ha]
    · refine List.Chain'.append (convL s) (List.chain'_singleton _) ?_
      intro x hx y hy
      have hxmem := List.mem_of_mem_getLast? hx
      obtain ⟨-, hxs⟩ := quality_loop_mem c fmt s q0 x hxmem
      obtain ⟨v, hxv, hvIter⟩ := hb4 x hxmem
      simp only [List.head?_cons, Option.mem_some_iff] at hy
      subst hy
      constructor
      · intro _
        exact ⟨v, qIter, hxv, by rw [hmaxeq], hvIter⟩
      · intro hne
        exact absurd (hxs ▸ rfl) hne
  | case5 s tr qIter hql hne ih =>
    intro h1 h2
    have htr : (progressive_compress_go c fmt q0 s).1 =
        tr ++ (progressive_compress_go c fmt q0 (downscale s)).1 := by
      rw [progressive_compress_go, hql]
      dsimp only
      rw [dif_neg hne]
    have hq : tr = (quality_loop c fmt s q0).1 := by rw [hql]
    subst hq
    have hd1 := (downscale_ge_one s).1
    have hd2 := (downscale_ge_one s).2
    have hdle := downscale_le s h1 h2
    obtain ⟨ihA, ihB, ihC⟩ := ih hd1 hd2
    obtain ⟨memS, -⟩ := go_trace_sizes c fmt q0 (downscale s) hd1 hd2
    rw [htr]
    refine ⟨?_, ?_, ?_⟩
    · intro e' he'
      rcases List.mem_append.mp he' with he' | he'
      · exact quality_loop_mem_q c fmt s q0 h20 h5 e' he'
      · exact ihA e' he'
    · intro e' he'
      rcases hL : (quality_loop c fmt s q0).1 with _ | ⟨a, l⟩
      · rw [hL] at he'
        simp only [List.nil_append] at he'
        exact ihB e' he'
      · rw [hL] at he'
        simp only [List.cons_append, List.head?_cons] at he'
        have ha : a = ⟨fmt, s, some q0⟩ :=
          quality_loop_head c fmt s q0 a (by rw [hL]; rfl)
        cases Option.some.inj he'
        rw [ha]
    · refine List.Chain'.append (convL s) ihC ?_
      intro x hx y hy
      obtain ⟨-, hxs⟩ := quality_loop_mem c fmt s q0 x (List.mem_of_mem_getLast? hx)
      obtain ⟨-, hy1, hy2, -, -⟩ := memS y (List.mem_of_mem_head? hy)
      have hyne : y.size ≠ s := by
        intro heq
        refine hne (Prod.ext (le_antisymm hdle.1 ?_) (le_antisymm hdle.2 ?_))
        · exact le_trans (le_of_eq (congrArg Prod.fst heq.symm)) hy1
        · exact le_trans (le_of_eq (congrArg Prod.snd heq.symm)) hy2
      constructor
      · intro heq
        exact absurd (heq.trans hxs) hyne
      · intro _
        exact ihB y hy

theorem go_hasSAVE (c : Codec) (h : c.hasSAVE = true) (fmt : String) (q : Nat)
    (s : Nat × Nat) :
    progressive_compress_go c fmt q s = ([], .error .typeError) := by
  rw [progressive_compress_go, quality_loop_hasSAVE c h]

theorem go_len (c : Codec) (fmt : String) (q0 : Nat) :
    ∀ s : Nat × Nat, (progressive_compress_go c fmt q0 s).1.length ≤
      (q0 / QUALITY_STEP + 2) * (downscaleChain s).length := by
  intro s
  induction s using progressive_compress_go.induct c fmt q0 with
  | case1 s tr e hql =>
    have htr : (progressive_compress_go c fmt q0 s).1 = tr := by
      rw [progressive_compress_go, hql]
    have hq : tr = (quality_loop c fmt s q0).1 := by rw [hql]
    subst hq
    rw [htr]
    have hlen := quality_loop_len c fmt s q0
    have hpos : 1 ≤ (downscaleChain s).length :=
      List.length_pos.mpr (downscaleChain_ne_nil s)
    calc (quality_loop c fmt s q0).1.length ≤ q0 / QUALITY_STEP + 1 := hlen
      _ ≤ q0 / QUALITY_STEP + 2 := by omega
      _ ≤ (q0 / QUALITY_STEP + 2) * (downscaleChain s).length :=
          Nat.le_mul_of_pos_right _ hpos
  | case2 s tr cand hql =>
    have htr : (progressive_compress_go c fmt q0 s).1 = tr := by
      rw [progressive_compress_go, hql]
    have hq : tr = (quality_loop c fmt s q0).1 := by rw [hql]
    subst hq
    rw [htr]
    have hlen := quality_loop_len c fmt s q0
    have hpos : 1 ≤ (downscaleChain s).length :=
      List.length_pos.mpr (downscaleChain_ne_nil s)
    calc (quality_loop c fmt s q0).1.length ≤ q0 / QUALITY_STEP + 1 := hlen
      _ ≤ q0 / QUALITY_STEP + 2 := by omega
      _ ≤ (q0 / QUALITY_STEP + 2) * (downscaleChain s).length :=
          Nat.le_mul_of_pos_right _ hpos
  | case3 s tr qIter hql hfix e henc =>
    have htr : (progressive_compress_go c fmt q0 s).1 =
        tr ++ [⟨fmt, s, some (MIN_QUALITY ⊔ qIter)⟩] := by
      rw [progressive_compress_go, hql]
      dsimp only
      rw [dif_pos hfix, henc]
    have hq : tr = (quality_loop c fmt s q0).1 := by rw [hql]
    subst hq
    rw [htr, downscaleChain, dif_pos hfix]
    have hlen := quality_loop_len c fmt s q0
    simp only [List.length_append, List.length_cons, List.length_singleton,
      List.length_nil]
    omega
  | case4 s tr qIter hql hfix len henc =>
    have htr : (progressive_compress_go c fmt q0 s).1 =
        tr ++ [⟨fmt, s, some (MIN_QUALITY ⊔ qIter)⟩] := by
      rw [progressive_compress_go, hql]
      dsimp only
      rw [dif_pos hfix, henc]
    have hq : tr = (quality_loop c fmt s q0).1 := by rw [hql]
    subst hq
    rw [htr, downscaleChain, dif_pos hfix]
    have hlen := quality_loop_len c fmt s q0
    simp only [List.length_append, List.length_cons, List.length_singleton,
      List.length_nil]
    omega
  | case5 s tr qIter hql hne ih =>
    have htr : (progressive_compress_go c fmt q0 s).1 =
        tr ++ (progressive_compress_go c fmt q0 (downscale s)).1 := by
      rw [progressive_compress_go, hql]
      dsimp only
      rw [dif_neg hne]
    have hq : tr = (quality_loop c fmt s q0).1 := by rw [hql]
    subst hq
    rw [htr, downscaleChain, dif_neg hne]
    have hlen := quality_loop_len c fmt s q0
    simp only [List.length_append, List.length_cons]
    rw [Nat.mul_add, Nat.mul_one]
    generalize hX : (q0 / QUALITY_STEP + 2) *
      (downscaleChain (downscale s)).length = X at ih ⊢
    omega

theorem png_shrink_head (c : Codec) :
    ∀ s : Nat × Nat, ∀ last : Candidate, ∀ e,
      (png_shrink_loop c s last).1.head? = some e →
      e = ⟨"PNG", downscale s, none⟩ := by
  intro s last
  induction s, last using png_shrink_loop.induct c with
  | case1 s last hfix =>
    rw [png_shrink_loop, dif_pos hfix]
    simp
  | case2 s last hfix e henc =>
    rw [png_shrink_loop, dif_neg hfix, henc]
    intro e' h
    simp at h
    exact h.symm
  | case3 s last hfix len henc hlen =>
    rw [png_shrink_loop, dif_neg hfix, henc]
    simp only [if_pos hlen]
    intro e' h
    simp at h
    exact h.symm
  | case4 s last hfix len henc hlen ih =>
    rw [png_shrink_loop, dif_neg hfix, henc]
    simp only [if_neg hlen]
    intro e' h
    simp at h
    exact h.symm

theorem png_shrink_mem (c : Codec) :
    ∀ s : Nat × Nat, ∀ last : Candidate, 1 ≤ s.1 → 1 ≤ s.2 →
      ∀ e ∈ (png_shrink_loop c s last).1,
        e.fmt = "PNG" ∧ e.quality = none ∧ e.size.1 ≤ s.1 ∧ e.size.2 ≤ s.2 ∧
        1 ≤ e.size.1 ∧ 1 ≤ e.size.2 := by
  intro s last
  induction s, last using png_shrink_loop.induct c with
  | case1 s last hfix =>
    rw [png_shrink_loop, dif_pos hfix]
    simp
  | case2 s last hfix e henc =>
    intro h1 h2
    have hdle := downscale_le s h1 h2
    have hdge := downscale_ge_one s
    rw [png_shrink_loop, dif_neg hfix, henc]
    intro e' he'
    simp at he'
    subst he'
    exact ⟨rfl, rfl, hdle.1, hdle.2, hdge.1, hdge.2⟩
  | case3 s last hfix len henc hlen =>
    intro h1 h2
    have hdle := downscale_le s h1 h2
    have hdge := downscale_ge_one s
    rw [png_shrink_loop, dif_neg hfix, henc]
    simp only [if_pos hlen]
    intro e' he'
    simp at he'
    subst he'
    exact ⟨rfl, rfl, hdle.1, hdle.2, hdge.1, hdge.2⟩
  | case4 s last hfix len henc hlen ih =>
    intro h1 h2
    have hdle := downscale_le s h1 h2
    have hdge := downscale_ge_one s
    rw [png_shrink_loop, dif_neg hfix, henc]
    simp only [if_neg hlen, List.mem_cons]
    rintro e' (rfl | he')
    · exact ⟨rfl, rfl, hdle.1, hdle.2, hdge.1, hdge.2⟩
    · obtain ⟨hf, hqu, hb1, hb2, hb3, hb4⟩ := ih hdge.1 hdge.2 e' he'
      exact ⟨hf, hqu, le_trans hb1 hdle.1, le_trans hb2 hdle.2, hb3, hb4⟩

theorem png_shrink_chain (c : Codec) :
    ∀ s : Nat × Nat, ∀ last : Candidate, 1 ≤ s.1 → 1 ≤ s.2 →
      List.Chain' pngStep (png_shrink_loop c s last).1 := by
  intro s last
  induction s, last using png_shrink_loop.induct c with
  | case1 s last hfix =>
    rw [png_shrink_loop, dif_pos hfix]
    simp
  | case2 s last hfix e henc =>
    intro h1 h2
    rw [png_shrink_loop, dif_neg hfix, henc]
    exact List.chain'_singleton _
  | case3 s last hfix len henc hlen =>
    intro h1 h2
    rw [png_shrink_loop, dif_neg hfix, henc]
    simp only [if_pos hlen]
    exact List.chain'_singleton _
  | case4 s last hfix len henc hlen ih =>
    intro h1 h2
    have hdge := downscale_ge_one s
    have hdle' := downscale_le (downscale s) hdge.1 hdge.2
    rw [png_shrink_loop, dif_neg hfix, henc]
    simp only [if_neg hlen]
    refine List.chain'_cons'.mpr ⟨?_, ih hdge.1 hdge.2⟩
    intro y hy
    have hy' := png_shrink_head c (downscale s) _ y hy
    subst hy'
    exact ⟨rfl, hdle'.1, hdle'.2⟩

theorem compress_image_cases (c : Codec) (f : InputFile)
    (o : Except PyError ImgInfo) :
    ((compress_image c f o).err.isSome → (compress_image c f o).actions = []) ∧
    (compress_image c f o).actions.countP isWrite ≤ 1 := by
  unfold compress_image
  rcases o with e | img
  · exact ⟨fun _ => rfl, by simp⟩
  · dsimp only
    repeat' split
    all_goals simp [isWrite, List.countP_cons, List.countP_nil]

theorem compress_image_png_shape (c : Codec) (f : InputFile) (img : ImgInfo)
    (hx : lower f.ext = ".png") :
    (compress_image c f (.ok img)).actions = [] ∨
    (∃ cand, (compress_image c f (.ok img)).actions =
        [.writeFile (f.base ++ f.ext) cand]) ∨
    (∃ cand, (compress_image c f (.ok img)).actions =
        [.writeFile (f.base ++ ".webp") cand, .removeFile (f.base ++ f.ext)]) ∨
    (∃ cand, (compress_image c f (.ok img)).actions =
        [.writeFile (f.base ++ ".jpg") cand, .removeFile (f.base ++ f.ext)]) := by
  unfold compress_image
  dsimp only
  rw [hx, if_neg (by decide), if_pos rfl]
  repeat' split
  all_goals simp

theorem png_shrink_never_accept (c : Codec)
    (hpng : ∀ sz q, ∃ L, c.encLen "PNG" sz q = .ok L ∧ TARGET_SIZE < L) :
    ∀ s : Nat × Nat, ∀ last : Candidate,
      ∃ last', (png_shrink_loop c s last).2 = .ok (.inr last') := by
  intro s last
  induction s, last using png_shrink_loop.induct c with
  | case1 s last hfix =>
    rw [png_shrink_loop, dif_pos hfix]
    exact ⟨last, rfl⟩
  | case2 s last hfix e henc =>
    obtain ⟨L, hL, -⟩ := hpng (downscale s) none
    rw [hL] at henc
    cases henc
  | case3 s last hfix len henc hlen =>
    obtain ⟨L, hL, hgt⟩ := hpng (downscale s) none
    rw [hL] at henc
    cases henc
    omega
  | case4 s last hfix len henc hlen ih =>
    obtain ⟨last', hlast'⟩ := ih
    refine ⟨last', ?_⟩
    rw [png_shrink_loop, dif_neg hfix, henc]
    simp only [if_neg hlen]
    exact hlast'

theorem quality_loop_accept (c : Codec) (fmt : String) (s : Nat × Nat) (q L : Nat)
    (hS : c.hasSAVE = false) (hsup : fmtSupportsQuality fmt = true)
    (henc : c.encLen fmt s (some q) = .ok L) (hle : L ≤ TARGET_SIZE) :
    quality_loop c fmt s q = ([⟨fmt, s, some q⟩], .ok (.inl ⟨s, some q, L⟩)) := by
  rw [quality_loop,
      show qualityCheck c.hasSAVE fmt = .ok true by
        rw [qualityCheck]
        simp [hS, hsup],
      henc]
  simp [if_pos hle]

theorem go_accept (c : Codec) (fmt : String) (s : Nat × Nat) (q L : Nat)
    (hS : c.hasSAVE = false) (hsup : fmtSupportsQuality fmt = true)
    (henc : c.encLen fmt s (some q) = .ok L) (hle : L ≤ TARGET_SIZE) :
    progressive_compress_go c fmt q s = ([⟨fmt, s, some q⟩], .ok ⟨s, some q, L⟩) := by
  rw [progressive_compress_go, quality_loop_accept c fmt s q L hS hsup henc hle]

theorem progressive_compress_95 (c : Codec) (fmt : String) (kwq : Option Nat)
    (s : Nat × Nat) :
    progressive_compress c fmt true kwq s = progressive_compress_go c fmt 95 s := rfl

/-! ## Claim theorems -/

/-- Claim C1.  The claim states that for quality-capable formats the search
starts at quality 95, encodes in memory, returns at the first length within
budget, and otherwise steps the quality down to the floor.  This is what the
code intends (comment in zip.py line 30) and what the dead fallback branch of
line 32 computes, but evaluating the quality-support condition calls
dict.keys with an argument, which raises TypeError whenever PIL.Image has the
SAVE registry — and every released Pillow does.  So for every input the
search raises before the first encode: the result is an empty encode trace
and a TypeError, not a quality search. -/
theorem c1_quality_search_raises (c : Codec) (hS : c.hasSAVE = true)
    (fmt : String) (qf : Bool) (kwq : Option Nat) (s : Nat × Nat) :
    progressive_compress c fmt qf kwq s = ([], .error .typeError) := by
  unfold progressive_compress
  exact go_hasSAVE c hS fmt _ s

theorem c1_quality_search_raises_witness :
    progressive_compress pilOver "JPEG" true none (100, 100) =
      ([], .error .typeError) :=
  c1_quality_search_raises pilOver rfl "JPEG" true none (100, 100)

/-- Claim C2.  The claim states that when the budget is unreachable the
search returns normally (never an error) with a best-effort floor-quality
encoding once a downscale step produces no dimension change.  On the code
this fails: with the Pillow SAVE registry present the quality-support check
raises TypeError on its first evaluation, so for every image whose encodings
all exceed the budget the search raises instead of returning. -/
theorem c2_unreachable_budget_raises (c : Codec) (fmt : String) (s : Nat × Nat)
    (hS : c.hasSAVE = true)
    (hover : ∀ sz q L, c.encLen fmt sz q = .ok L → TARGET_SIZE < L) :
    (progressive_compress c fmt true none s).2 = .error .typeError := by
  unfold progressive_compress
  rw [go_hasSAVE c hS]

theorem c2_unreachable_budget_raises_witness :
    (progressive_compress pilOver "JPEG" true none (100, 100)).2 =
      .error .typeError :=
  c2_unreachable_budget_raises pilOver "JPEG" (100, 100) rfl
    (fun sz q L h => by cases h; exact Nat.lt_succ_self _)

/-- Claim C3.  Candidate encodings are produced in memory only
(_try_save_to_bytes and _progressive_compress are modelled as pure functions
that emit no filesystem action by construction), and every run of
compress_image performs at most one write to the filesystem. -/
theorem c3_at_most_one_write (c : Codec) (f : InputFile)
    (o : Except PyError ImgInfo) :
    (compress_image c f o).actions.countP isWrite ≤ 1 :=
  (compress_image_cases c f o).2

/-- Claim C4.  One downscale step multiplies both dimensions by the fixed
ratio 0.9 rounding down, clamped to at least 1 pixel, and never increases a
dimension; across the encode attempts of one _progressive_compress search and
of one lossless PNG shrink loop, working-image sizes are componentwise
non-increasing and never drop below 1x1. -/
theorem c4_sizes_non_increasing (c : Codec) (fmt : String) (s : Nat × Nat)
    (h1 : 1 ≤ s.1) (h2 : 1 ≤ s.2) (last : Candidate) :
    (downscale s = (max 1 (9 * s.1 / 10), max 1 (9 * s.2 / 10)) ∧
      (downscale s).1 ≤ s.1 ∧ (downscale s).2 ≤ s.2 ∧
      1 ≤ (downscale s).1 ∧ 1 ≤ (downscale s).2) ∧
    List.Chain' sizeNonInc (progressive_compress c fmt true none s).1 ∧
    (∀ e ∈ (progressive_compress c fmt true none s).1,
        e.size.1 ≤ s.1 ∧ e.size.2 ≤ s.2 ∧ 1 ≤ e.size.1 ∧ 1 ≤ e.size.2) ∧
    List.Chain' pngStep (png_shrink_loop c s last).1 ∧
    (∀ e ∈ (png_shrink_loop c s last).1,
        e.size.1 ≤ s.1 ∧ e.size.2 ≤ s.2 ∧ 1 ≤ e.size.1 ∧ 1 ≤ e.size.2) := by
  have hdle := downscale_le s h1 h2
  have hdge := downscale_ge_one s
  obtain ⟨hmem, hchain⟩ := go_trace_sizes c fmt 95 s h1 h2
  rw [progressive_compress_95]
  refine ⟨⟨rfl, hdle.1, hdle.2, hdge.1, hdge.2⟩, hchain, ?_,
    png_shrink_chain c s last h1 h2, ?_⟩
  · intro e he
    obtain ⟨-, b1, b2, b3, b4⟩ := hmem e he
    exact ⟨b1, b2, b3, b4⟩
  · intro e he
    obtain ⟨-, -, b1, b2, b3, b4⟩ := png_shrink_mem c s last h1 h2 e he
    exact ⟨b1, b2, b3, b4⟩

theorem c4_sizes_non_increasing_witness :
    (downscale (3, 2) = (max 1 (9 * (3, 2).1 / 10), max 1 (9 * (3, 2).2 / 10)) ∧
      (downscale (3, 2)).1 ≤ (3, 2).1 ∧ (downscale (3, 2)).2 ≤ (3, 2).2 ∧
      1 ≤ (downscale (3, 2)).1 ∧ 1 ≤ (downscale (3, 2)).2) ∧
    List.Chain' sizeNonInc (progressive_compress demoOver "JPEG" true none (3, 2)).1 ∧
    (∀ e ∈ (progressive_compress demoOver "JPEG" true none (3, 2)).1,
        e.size.1 ≤ (3, 2).1 ∧ e.size.2 ≤ (3, 2).2 ∧ 1 ≤ e.size.1 ∧ 1 ≤ e.size.2) ∧
    List.Chain' pngStep (png_shrink_loop demoOver (3, 2) ⟨(3, 2), none, 0⟩).1 ∧
    (∀ e ∈ (png_shrink_loop demoOver (3, 2) ⟨(3, 2), none, 0⟩).1,
        e.size.1 ≤ (3, 2).1 ∧ e.size.2 ≤ (3, 2).2 ∧ 1 ≤ e.size.1 ∧ 1 ≤ e.size.2) :=
  c4_sizes_non_increasing demoOver "JPEG" (3, 2) (by decide) (by decide)
    ⟨(3, 2), none, 0⟩

/-- Claim C5.  Along the encode attempts of one _progressive_compress search
entered with quality_first (start quality 95): between consecutive attempts
at the same working size the quality keyword does not increase, after every
size change it restarts at 95, and every quality tried lies between the
floor MIN_QUALITY and 95. -/
theorem c5_quality_policy (c : Codec) (fmt : String) (s : Nat × Nat)
    (h1 : 1 ≤ s.1) (h2 : 1 ≤ s.2) :
    List.Chain' (qualityPolicy 95) (progressive_compress c fmt true none s).1 ∧
    ∀ e ∈ (progressive_compress c fmt true none s).1,
      ∃ v, e.quality = some v ∧ MIN_QUALITY ≤ v ∧ v ≤ 95 := by
  rw [progressive_compress_95]
  obtain ⟨hA, -, hC⟩ :=
    go_trace_quality c fmt 95 (by decide) (by decide) s h1 h2
  exact ⟨hC, hA⟩

theorem c5_quality_policy_witness :
    List.Chain' (qualityPolicy 95) (progressive_compress demoOver "JPEG" true none (2, 1)).1 ∧
    ∀ e ∈ (progressive_compress demoOver "JPEG" true none (2, 1)).1,
      ∃ v, e.quality = some v ∧ MIN_QUALITY ≤ v ∧ v ≤ 95 :=
  c5_quality_policy demoOver "JPEG" (2, 1) (by decide) (by decide)

/-- Claim C6.  The claim states that opaque PNGs are converted to JPEG (new
.jpg written, original deleted) and alpha PNGs never are.  The conversion
table is clearly the intent (zip.py line 113 announces the conversion), but
with the Pillow SAVE registry present the JPEG search raises TypeError before
any encode, the exception is caught by the per-file handler, and nothing at
all is written: the opaque PNG is neither converted nor deleted. -/
theorem c6_opaque_png_not_converted (c : Codec) (hS : c.hasSAVE = true)
    (f : InputFile) (img : ImgInfo) (hx : lower f.ext = ".png")
    (ha : has_alpha img = false) :
    compress_image c f (.ok img) = ⟨[], [], some .typeError⟩ := by
  unfold compress_image
  dsimp only
  rw [hx, if_neg (by decide), if_pos rfl,
      if_neg (show ¬ has_alpha img = true by simp [ha]),
      progressive_compress_95, go_hasSAVE c hS]

theorem c6_opaque_png_not_converted_witness :
    compress_image pilOver opaqueFile (.ok opaqueImg) = ⟨[], [], some .typeError⟩ :=
  c6_opaque_png_not_converted pilOver rfl opaqueFile opaqueImg (by decide) (by decide)

/-- Claim C8.  Decode and encode failures while processing one file are
caught at the per-file boundary: compress_image is a total function whose
err field records the caught exception, process_folder yields one outcome per
directory entry whatever the outcomes of the other entries are, and whenever
the per-file handler catches a failure, no filesystem action at all was
performed for that file. -/
theorem c8_per_file_isolation (c : Codec) (files : List FolderFile) :
    (process_folder c files).length = files.length ∧
    ∀ f : InputFile, ∀ o : Except PyError ImgInfo,
      (compress_image c f o).err.isSome → (compress_image c f o).actions = [] := by
  constructor
  · unfold process_folder
    exact List.length_map _ _
  · intro f o
    exact (compress_image_cases c f o).1

theorem c8_per_file_isolation_witness :
    (process_folder pilOver [brokenFolder]).length = 1 ∧
    (compress_image pilOver ⟨"broken", ".jpg"⟩ (.error .decodeError)).actions = [] :=
  ⟨(c8_per_file_isolation pilOver [brokenFolder]).1,
   (c8_per_file_isolation pilOver [brokenFolder]).2 ⟨"broken", ".jpg"⟩
     (.error .decodeError) rfl⟩

/-- Claim C9.  For every starting size with both dimensions at least 1, the
downscale chain ends exactly at the 1x1 floor, each chain step is one
downscale that strictly shrinks at least one dimension, a downscale step at
1x1 produces no dimension change (the loop exit condition), and the number of
encode attempts of one search is bounded by 21 per chain entry, so the
quality-then-scale loop terminates. -/
theorem c9_search_terminates (s : Nat × Nat) (h1 : 1 ≤ s.1) (h2 : 1 ≤ s.2) :
    (downscaleChain s).getLast? = some (1, 1) ∧
    List.Chain' chainStep (downscaleChain s) ∧
    downscale (1, 1) = (1, 1) ∧
    ∀ c : Codec, ∀ fmt : String,
      (progressive_compress c fmt true none s).1.length ≤
        21 * (downscaleChain s).length := by
  refine ⟨downscaleChain_getLast s h1 h2, downscaleChain_chain s h1 h2,
    by decide, ?_⟩
  intro c fmt
  rw [progressive_compress_95]
  have hb := go_len c fmt 95 s
  have h21 : 95 / QUALITY_STEP + 2 = 21 := by decide
  rw [h21] at hb
  exact hb

theorem c9_search_terminates_witness :
    (downscaleChain (3, 2)).getLast? = some (1, 1) ∧
    List.Chain' chainStep (downscaleChain (3, 2)) ∧
    downscale (1, 1) = (1, 1) ∧
    ∀ c : Codec, ∀ fmt : String,
      (progressive_compress c fmt true none (3, 2)).1.length ≤
        21 * (downscaleChain (3, 2)).length :=
  c9_search_terminates (3, 2) (by decide) (by decide)

theorem gif_quality_loop_eq :
    quality_loop gifCodec "GIF" (1, 1) 95 = ([], .ok (.inr 95)) := by
  rw [quality_loop, show qualityCheck gifCodec.hasSAVE "GIF" = .ok false from by decide]

theorem gif_go_eq :
    progressive_compress_go gifCodec "GIF" 95 (1, 1) =
      ([⟨"GIF", (1, 1), some 95⟩], .error .encodeError) := by
  rw [progressive_compress_go, gif_quality_loop_eq]
  dsimp only
  rw [dif_pos (show downscale (1, 1) = (1, 1) by decide),
      show gifCodec.encLen "GIF" (1, 1) (some (MIN_QUALITY ⊔ 95)) =
        .error .encodeError from rfl]
  simp
  decide

theorem gif_jpeg_go_eq :
    progressive_compress_go gifCodec "JPEG" 95 (1, 1) =
      ([⟨"JPEG", (1, 1), some 95⟩], .ok ⟨(1, 1), some 95, 0⟩) :=
  go_accept gifCodec "JPEG" (1, 1) 95 0 rfl (by decide) rfl (by decide)

theorem gif_run_eq :
    compress_image gifCodec gifFile (.ok gifImg) =
      ⟨[.writeFile "anim.jpg" ⟨(1, 1), some 95, 0⟩],
       [⟨"GIF", (1, 1), some 95⟩, ⟨"JPEG", (1, 1), some 95⟩], none⟩ := by
  unfold compress_image
  dsimp only
  rw [show lower gifFile.ext = ".gif" from by decide,
      if_neg (by decide), if_neg (by decide), if_neg (by decide),
      show gifImg.format.getD "PNG" = "GIF" from rfl,
      show gifImg.size = (1, 1) from rfl,
      progressive_compress_95, gif_go_eq]
  dsimp only
  rw [progressive_compress_95, gif_jpeg_go_eq]
  simp [gifFile]

/-- Claim C7 counterexample.  In the final other-format branch of
compress_image, when the original-format search fails, the fallback writes a
new .jpg beside the original without deleting it: for the concrete input file
anim.gif a write with changed extension happens and no removal of any path
happens, refuting the claim that every changed-extension write is accompanied
by deletion of the original. -/
theorem c7_counterexample :
    FsAction.writeFile "anim.jpg" ⟨(1, 1), some 95, 0⟩ ∈
      (compress_image gifCodec gifFile (.ok gifImg)).actions ∧
    FsAction.removeFile ("anim" ++ ".gif") ∉
      (compress_image gifCodec gifFile (.ok gifImg)).actions := by
  rw [gif_run_eq]
  exact ⟨by simp, by decide⟩

/-- Claim C7 (amended).  In the PNG branch of compress_image — the opaque
PNG to JPEG conversion and the transparent PNG to WebP conversion — every
write to a path other than the original is accompanied by deletion of the
original file; the other-format fallback branch (reached only for extensions
outside .jpg/.jpeg/.png/.webp) writes its fallback .jpg without deleting the
original. -/
theorem c7_png_branch_deletes_original (c : Codec) (f : InputFile)
    (img : ImgInfo) (hx : lower f.ext = ".png") (path : String)
    (cand : Candidate)
    (hw : FsAction.writeFile path cand ∈ (compress_image c f (.ok img)).actions)
    (hne : path ≠ f.base ++ f.ext) :
    FsAction.removeFile (f.base ++ f.ext) ∈
      (compress_image c f (.ok img)).actions := by
  rcases compress_image_png_shape c f img hx with h | ⟨cd, h⟩ | ⟨cd, h⟩ | ⟨cd, h⟩ <;>
    rw [h] at hw ⊢
  · cases hw
  · simp only [List.mem_singleton, FsAction.writeFile.injEq] at hw
    exact absurd hw.1 hne
  · simp
  · simp

theorem alpha_shrink_eq :
    png_shrink_loop pngWebpCodec alphaImg.size ⟨alphaImg.size, none, TARGET_SIZE + 1⟩ =
      ([], .ok (.inr ⟨alphaImg.size, none, TARGET_SIZE + 1⟩)) := by
  show png_shrink_loop pngWebpCodec (1, 1) ⟨(1, 1), none, TARGET_SIZE + 1⟩ =
    ([], .ok (.inr ⟨(1, 1), none, TARGET_SIZE + 1⟩))
  rw [png_shrink_loop, dif_pos (show downscale (1, 1) = (1, 1) by decide)]

theorem alpha_webp_go_eq :
    progressive_compress_go pngWebpCodec "WEBP" 95 alphaImg.size =
      ([⟨"WEBP", (1, 1), some 95⟩], .ok ⟨(1, 1), some 95, 0⟩) :=
  go_accept pngWebpCodec "WEBP" (1, 1) 95 0 rfl (by decide) rfl (by decide)

theorem alpha_run_eq :
    compress_image pngWebpCodec alphaFile (.ok alphaImg) =
      ⟨[.writeFile "pic.webp" ⟨(1, 1), some 95, 0⟩, .removeFile "pic.png"],
       [⟨"PNG", (1, 1), none⟩, ⟨"WEBP", (1, 1), some 95⟩], none⟩ := by
  unfold compress_image
  dsimp only
  rw [show lower alphaFile.ext = ".png" from by decide,
      if_neg (by decide), if_pos rfl,
      if_pos (show has_alpha alphaImg = true from by decide),
      show pngWebpCodec.encLen "PNG" alphaImg.size none = .ok (TARGET_SIZE + 1) from rfl]
  dsimp only
  rw [if_neg (by decide : ¬ TARGET_SIZE + 1 ≤ TARGET_SIZE)]
  rw [alpha_shrink_eq]
  dsimp only
  rw [if_pos rfl, progressive_compress_95, alpha_webp_go_eq]
  simp [alphaFile, alphaImg]

theorem c7_png_branch_deletes_original_witness :
    FsAction.removeFile (alphaFile.base ++ alphaFile.ext) ∈
      (compress_image pngWebpCodec alphaFile (.ok alphaImg)).actions :=
  c7_png_branch_deletes_original pngWebpCodec alphaFile alphaImg (by decide)
    "pic.webp" ⟨(1, 1), some 95, 0⟩ (by rw [alpha_run_eq]; simp) (by decide)

/-- Claim C10.  For a transparent PNG whose lossless PNG attempts all exceed
the budget, with PNG to WebP conversion permitted, the WebP quality-and-scale
search is seeded with the original image: when the WebP encoding of the
original full-resolution size fits the budget at quality 95, the candidate
written to the new .webp path carries the original dimensions — not the 1x1
size the PNG working copy was downscaled to — and the original file is
removed, with no error reported. -/
theorem c10_webp_restarts_from_original (c : Codec) (f : InputFile)
    (img : ImgInfo) (hx : lower f.ext = ".png") (ha : has_alpha img = true)
    (hS : c.hasSAVE = false)
    (hpng : ∀ sz q, ∃ L, c.encLen "PNG" sz q = .ok L ∧ TARGET_SIZE < L)
    (L : Nat) (hwebp : c.encLen "WEBP" img.size (some 95) = .ok L)
    (hL : L ≤ TARGET_SIZE) :
    FsAction.writeFile (f.base ++ ".webp") ⟨img.size, some 95, L⟩ ∈
      (compress_image c f (.ok img)).actions ∧
    FsAction.removeFile (f.base ++ f.ext) ∈
      (compress_image c f (.ok img)).actions ∧
    (compress_image c f (.ok img)).err = none := by
  obtain ⟨L0, hL0, hgt0⟩ := hpng img.size none
  obtain ⟨last', hps⟩ :=
    png_shrink_never_accept c hpng img.size ⟨img.size, none, L0⟩
  have hwebpgo := go_accept c "WEBP" img.size 95 L hS (by decide) hwebp hL
  unfold compress_image
  dsimp only
  rw [hx, if_neg (by decide), if_pos rfl, if_pos ha, hL0]
  dsimp only
  rw [if_neg (show ¬ L0 ≤ TARGET_SIZE by omega)]
  rw [show png_shrink_loop c img.size ⟨img.size, none, L0⟩ =
      ((png_shrink_loop c img.size ⟨img.size, none, L0⟩).1, .ok (.inr last')) from by
    rw [← hps]]
  dsimp only
  rw [if_pos rfl, progressive_compress_95, hwebpgo]
  refine ⟨by simp, by simp, rfl⟩

theorem c10_webp_restarts_from_original_witness :
    FsAction.writeFile (alphaFile.base ++ ".webp") ⟨alphaImg2.size, some 95, 0⟩ ∈
      (compress_image pngWebpCodec alphaFile (.ok alphaImg2)).actions ∧
    FsAction.removeFile (alphaFile.base ++ alphaFile.ext) ∈
      (compress_image pngWebpCodec alphaFile (.ok alphaImg2)).actions ∧
    (compress_image pngWebpCodec alphaFile (.ok alphaImg2)).err = none :=
  c10_webp_restarts_from_original pngWebpCodec alphaFile alphaImg2 (by decide)
    (by decide) rfl (fun sz q => ⟨TARGET_SIZE + 1, rfl, by decide⟩) 0 rfl
    (by decide)
